import Mathlib

/-!
# Verification of the rebel-stream relation-extraction core

Shallow embedding of the three core components of the repository:
the token-budget document segmenter (`segment_document`), the typed-triplet
state-machine parser (`extract_triplets_typed`), and the streaming batch
pipeline (worker drain loop and per-document result correlator) from
`base_extractor.py` and `streaming_extractor.py`.

Python string primitives (`str.strip`, `str.split`, `str.replace`,
`' '.join`) are modelled on the character list underlying `String`,
mirroring their Python semantics exactly.
-/

set_option maxHeartbeats 1000000

namespace RebelStream

/-! ## Models of the Python string primitives -/

/-- Python `str.strip()` on a character list: drop leading and trailing
whitespace. -/
def pyStripList (l : List Char) : List Char :=
  ((l.dropWhile Char.isWhitespace).reverse.dropWhile Char.isWhitespace).reverse

/-- Python `str.strip()`. -/
def pyStrip (s : String) : String := ⟨pyStripList s.data⟩

/-- Helper for Python `str.split()`: accumulate the current word (reversed)
and break at whitespace, dropping empty pieces. -/
def wordsAux : List Char → List Char → List String
  | [], acc => if acc = [] then [] else [⟨acc.reverse⟩]
  | c :: cs, acc =>
      if c.isWhitespace then
        if acc = [] then wordsAux cs [] else ⟨acc.reverse⟩ :: wordsAux cs []
      else wordsAux cs (c :: acc)

/-- Python `str.split()` with no argument: split on runs of whitespace,
no empty pieces. -/
def pySplit (s : String) : List String := wordsAux s.data []

/-- Replace every non-overlapping occurrence of the pattern `p :: ps`,
left to right (Python `str.replace` semantics). The first argument counts
characters of an already-matched occurrence still to be skipped, so the
recursion is structural on the scanned list. -/
def replaceAux (p : Char) (ps repl : List Char) : Nat → List Char → List Char
  | _ + 1, [] => []
  | skip + 1, _ :: cs => replaceAux p ps repl skip cs
  | 0, [] => []
  | 0, c :: cs =>
      if (p :: ps).isPrefixOf (c :: cs) then
        repl ++ replaceAux p ps repl ps.length cs
      else
        c :: replaceAux p ps repl 0 cs

/-- Python `str.replace(pat, repl)` (our patterns are always non-empty;
an empty pattern leaves the string unchanged). -/
def pyReplace (s pat repl : String) : String :=
  match pat.data with
  | [] => s
  | p :: ps => ⟨replaceAux p ps repl.data 0 s.data⟩

/-- Python `' '.join(ws)`. -/
def joinSp : List String → String
  | [] => ""
  | [w] => w
  | w :: ws => w ++ " " ++ joinSp ws

/-! ## The typed-triplet parser (`extract_triplets_typed`) -/

/-- A typed relation triplet, as built by `extract_triplets_typed`
(the Python dict keys are `head`, `head_type`, `type`, `tail`,
`tail_type`). -/
structure Triplet where
  head : String
  head_type : String
  type : String
  tail : String
  tail_type : String
deriving DecidableEq, Repr

/-- The `current` variable of the parser: one of the Python characters
`'x'`, `'t'`, `'s'`, `'o'`. -/
inductive PState where
  | x | t | s | o
deriving DecidableEq, Repr

/-- The parser's mutable loop state. -/
structure ParseState where
  current : PState
  subject : String
  relation : String
  object_ : String
  object_type : String
  subject_type : String
  triplets : List Triplet
deriving DecidableEq, Repr

/-- Initial parser state (`current = 'x'`, all accumulators empty). -/
def initParseState : ParseState :=
  { current := .x, subject := "", relation := "", object_ := "",
    object_type := "", subject_type := "", triplets := [] }

/-- The triplet dict the Python code builds at each flush point. -/
def mkTriplet (st : ParseState) : Triplet :=
  { head := pyStrip st.subject, head_type := st.subject_type,
    type := pyStrip st.relation, tail := pyStrip st.object_,
    tail_type := st.object_type }

/-- Python `all(triplet.values())`: all five fields non-empty. -/
def tripletComplete (t : Triplet) : Bool :=
  t.head ≠ "" && t.head_type ≠ "" && t.type ≠ "" && t.tail ≠ "" && t.tail_type ≠ ""

/-- Python `token[1:-1]`. -/
def innerTag (tok : String) : String := ⟨(tok.data.drop 1).dropLast⟩

/-- Python `token.startswith("<") and token.endswith(">")`. -/
def isTagToken (tok : String) : Bool :=
  tok.data.head? = some '<' && tok.data.getLast? = some '>'

/-- One iteration of the parser's token loop. -/
def stepToken (st : ParseState) (token : String) : ParseState :=
  if token = "<triplet>" || token = "<relation>" then
    let st1 :=
      if st.relation ≠ "" then
        let tr := mkTriplet st
        { st with
            triplets := if tripletComplete tr then st.triplets ++ [tr] else st.triplets,
            relation := "" }
      else st
    { st1 with current := .t, subject := "" }
  else if isTagToken token then
    if st.current = .t || st.current = .o then
      let st1 :=
        if st.relation ≠ "" then
          let tr := mkTriplet st
          { st with
              triplets := if tripletComplete tr then st.triplets ++ [tr] else st.triplets }
        else st
      { st1 with current := .s, object_ := "", subject_type := innerTag token }
    else
      { st with current := .o, object_type := innerTag token, relation := "" }
  else
    match st.current with
    | .t => { st with subject := st.subject ++ " " ++ token }
    | .s => { st with object_ := st.object_ ++ " " ++ token }
    | .o => { st with relation := st.relation ++ " " ++ token }
    | .x => st

/-- The end-of-stream flush: if all five raw accumulators are non-empty,
emit one final triplet. -/
def finishTriplets (st : ParseState) : List Triplet :=
  if st.subject ≠ "" && st.relation ≠ "" && st.object_ ≠ "" &&
     st.object_type ≠ "" && st.subject_type ≠ "" then
    st.triplets ++ [mkTriplet st]
  else st.triplets

/-- The five sentinel-token removals performed before whitespace
tokenization. -/
def stripSentinels (s : String) : String :=
  pyReplace (pyReplace (pyReplace (pyReplace (pyReplace s "<s>" "")
    "<pad>" "") "</s>" "") "tp_XX" "") "__en__" ""

/-- `text.strip()`, sentinel removal, then `.split()`. -/
def tokenizeGenerated (s : String) : List String :=
  pySplit (stripSentinels (pyStrip s))

/-- `BaseRelationExtractor.extract_triplets_typed`. -/
def extract_triplets_typed (text : String) : List Triplet :=
  if text = "" then []
  else finishTriplets ((tokenizeGenerated text).foldl stepToken initParseState)

/-! ## The document segmenter (`segment_document`)

The token-length oracle (`get_token_length`) and the sentence-boundary
oracle (`sent_tokenize`) are external collaborators, so the segmenter is
parameterized by an arbitrary `tokLen : String → Nat` and by the sentence
list the oracle produced. -/

/-- The inner word-repacking loop of `segment_document` for an oversized
sentence: returns the flushed segments together with the pending
`temp_segment` and `temp_length`. -/
def packWords (tokLen : String → Nat) (safe : Nat) :
    List String → List String → Nat → List String × List String × Nat
  | [], temp, tlen => ([], temp, tlen)
  | w :: ws, temp, tlen =>
      if safe < tlen + tokLen (w ++ " ") then
        ((if temp ≠ [] then [joinSp temp] else []) ++
            (packWords tokLen safe ws [w] (tokLen (w ++ " "))).1,
         (packWords tokLen safe ws [w] (tokLen (w ++ " "))).2)
      else
        packWords tokLen safe ws (temp ++ [w]) (tlen + tokLen (w ++ " "))

/-- The oversized-sentence fallback: repack the sentence word by word
(`sentence.split()`) and flush the trailing partial chunk. -/
def splitLongSentence (tokLen : String → Nat) (safe : Nat) (sentence : String) :
    List String :=
  (packWords tokLen safe (pySplit sentence) [] 0).1 ++
    (if (packWords tokLen safe (pySplit sentence) [] 0).2.1 ≠ [] then
      [joinSp (packWords tokLen safe (pySplit sentence) [] 0).2.1]
    else [])

/-- The main sentence-packing loop of `segment_document`, carrying
`current_segment` and `current_length`. -/
def segmentLoop (tokLen : String → Nat) (safe : Nat) :
    List String → List String → Nat → List String
  | [], cur, _ => if cur ≠ [] then [joinSp cur] else []
  | s :: ss, cur, clen =>
      if safe < tokLen s then
        (if cur ≠ [] then [joinSp cur] else []) ++ splitLongSentence tokLen safe s
          ++ segmentLoop tokLen safe ss [] 0
      else if safe < clen + tokLen s then
        (if cur ≠ [] then [joinSp cur] else []) ++ segmentLoop tokLen safe ss [s] (tokLen s)
      else
        segmentLoop tokLen safe ss (cur ++ [s]) (clen + tokLen s)

/-- `BaseRelationExtractor.segment_document`, over the sentence list
returned by the sentence oracle, with token budget `safe`
(`self.safe_length`). -/
def segment_document (tokLen : String → Nat) (safe : Nat)
    (sentences : List String) : List String :=
  segmentLoop tokLen safe sentences [] 0

/-! ## The streaming pipeline (`streaming_extractor.py`) -/

/-- An input-queue work item (`{'doc_id', 'segment', 'src_lang'}`). -/
structure WorkItem where
  doc_id : String
  segment : String
  src_lang : String
deriving DecidableEq, Repr

/-- An output-queue entry (`{'doc_id', 'triplets'}`). -/
structure SegmentResult where
  doc_id : String
  triplets : List Triplet
deriving DecidableEq, Repr

/-- The `final_result` dict yielded per document. -/
structure DocumentResult where
  doc_id : String
  language : String
  triplets : List Triplet
  num_segments : Nat
deriving DecidableEq, Repr

/-- Outcome of one inference call (`self.extractor(...)` and decoding in
`process_segment`): the call may raise, return a falsy / non-list /
empty result, carry no `translation_token_ids`, decode to nothing, or
decode to a text. -/
inductive InferResult where
  | raises
  | badResult
  | noIds
  | noDecode
  | decoded (text : String)
deriving DecidableEq, Repr

/-- `BaseRelationExtractor.process_segment`, parameterized by the token
oracle, the budget and the inference capability. The second component
counts inference invocations (0 or 1). -/
def processSegmentRun (tokLen : String → Nat) (safe : Nat)
    (infer : String → InferResult) (segment : String) : List Triplet × Nat :=
  if safe < tokLen segment then ([], 0)
  else
    match infer segment with
    | .raises => ([], 1)
    | .badResult => ([], 1)
    | .noIds => ([], 1)
    | .noDecode => ([], 1)
    | .decoded text => (extract_triplets_typed text, 1)

/-- The triplet list `process_segment` returns. -/
def process_segment (tokLen : String → Nat) (safe : Nat)
    (infer : String → InferResult) (segment : String) : List Triplet :=
  (processSegmentRun tokLen safe infer segment).1

/-- One worker step of `_process_queue`: process one dequeued item and
build its `SegmentResult` (always enqueued; empty triplet list when the
item's processing failed). -/
def workerStep (tokLen : String → Nat) (safe : Nat)
    (infer : String → InferResult) (it : WorkItem) : SegmentResult :=
  ⟨it.doc_id, process_segment tokLen safe infer it.segment⟩

/-- The worker loop of `_process_queue` after `stop_event` is set and no
further submissions arrive: repeatedly take up to `batchSize` items from
the head of the input queue, emit one `SegmentResult` per item, and exit
once the queue is empty. The fuel argument bounds the number of batch
rounds; since at least one item is consumed per round when
`0 < batchSize`, `items.length` rounds always suffice (proved below).
With `batchSize = 0` the real loop never fills a batch and breaks at
once, producing nothing, which the fuel-0 base case also yields. -/
def drainFuel (batchSize : Nat) (f : WorkItem → SegmentResult) :
    Nat → List WorkItem → List SegmentResult
  | 0, _ => []
  | _ + 1, [] => []
  | fuel + 1, it :: its =>
      ((it :: its).take batchSize).map f
        ++ drainFuel batchSize f fuel ((it :: its).drop batchSize)

/-- The post-`stop` drain of the input queue by `_process_queue`. -/
def drainQueue (batchSize : Nat) (f : WorkItem → SegmentResult)
    (items : List WorkItem) : List SegmentResult :=
  drainFuel batchSize f items.length items

/-- The per-document result-collection loop of `process_stream`: take
the next result from the output queue; a result whose `doc_id` matches
is counted and its triplets appended; any other result is dropped.
Returns `none` when the queue is exhausted before `need` matching
results arrive (the real loop would wait forever); otherwise the
collected triplets and the remaining queue. -/
def collectResults (d : String) :
    List SegmentResult → Nat → Option (List Triplet × List SegmentResult)
  | q, 0 => some ([], q)
  | [], _ + 1 => none
  | r :: rest, n + 1 =>
      if r.doc_id = d then
        (collectResults d rest n).map fun p => (r.triplets ++ p.1, p.2)
      else
        collectResults d rest (n + 1)

/-- The `final_result` construction of `process_stream` for one document
whose segmenter produced `n` segments. -/
def correlateDocument (d lang : String) (n : Nat)
    (queue : List SegmentResult) : Option (DocumentResult × List SegmentResult) :=
  (collectResults d queue n).map fun p => (⟨d, lang, p.1, n⟩, p.2)

/-! ## Lemmas about the worker drain loop -/

/-- With a positive batch size, `items.length` rounds of fuel suffice for
the drain loop to process the whole queue in order. -/
theorem drainFuel_eq_map (batchSize : Nat) (f : WorkItem → SegmentResult)
    (hbs : 0 < batchSize) :
    ∀ (fuel : Nat) (items : List WorkItem), items.length ≤ fuel →
      drainFuel batchSize f fuel items = items.map f := by
  intro fuel
  induction fuel with
  | zero =>
    intro items h
    have hn : items = [] := List.eq_nil_of_length_eq_zero (Nat.le_zero.mp h)
    subst hn
    rfl
  | succ n ih =>
    intro items h
    match items with
    | [] => rfl
    | it :: its =>
      rw [drainFuel, ih ((it :: its).drop batchSize) ?_,
        ← List.map_append, List.take_append_drop]
      simp only [List.length_drop, List.length_cons] at *
      omega

/-- The drain loop with its fuel set to the queue length: every pending
item is processed, in order. -/
theorem drainQueue_eq_map (batchSize : Nat) (f : WorkItem → SegmentResult)
    (items : List WorkItem) (hbs : 0 < batchSize) :
    drainQueue batchSize f items = items.map f :=
  drainFuel_eq_map batchSize f hbs items.length items (Nat.le_refl _)

/-! ## Lemmas about the result correlator -/

/-- Soundness of the collection loop: when it returns, the queue splits
into a consumed prefix and the untouched remainder; the collected
triplets are exactly those of the `d`-tagged entries of the prefix (in
arrival order), the prefix holds exactly `n` such entries, and (when
`n > 0`) collection stops right at the `n`-th matching entry. -/
theorem collectResults_sound (d : String) :
    ∀ (q : List SegmentResult) (n : Nat) (ts : List Triplet) (rest : List SegmentResult),
      collectResults d q n = some (ts, rest) →
      ∃ consumed : List SegmentResult,
        q = consumed ++ rest ∧
        ts = ((consumed.filter fun r => r.doc_id == d).map SegmentResult.triplets).flatten ∧
        (consumed.filter fun r => r.doc_id == d).length = n ∧
        (n = 0 → consumed = []) ∧
        (0 < n → ∃ c r, consumed = c ++ [r] ∧ r.doc_id = d) := by
  intro q
  induction q with
  | nil =>
    intro n ts rest h
    match n with
    | 0 =>
      simp only [collectResults, Option.some.injEq, Prod.mk.injEq] at h
      obtain ⟨hts, hrest⟩ := h
      subst hts; subst hrest
      exact ⟨[], by simp, by simp, by simp, fun _ => rfl,
        fun h0 => absurd h0 (Nat.lt_irrefl 0)⟩
    | n + 1 => simp [collectResults] at h
  | cons r rq ih =>
    intro n ts rest h
    match n with
    | 0 =>
      simp only [collectResults, Option.some.injEq, Prod.mk.injEq] at h
      obtain ⟨hts, hrest⟩ := h
      subst hts; subst hrest
      exact ⟨[], by simp, by simp, by simp, fun _ => rfl,
        fun h0 => absurd h0 (Nat.lt_irrefl 0)⟩
    | n + 1 =>
      by_cases hd : r.doc_id = d
      · rw [collectResults, if_pos hd] at h
        cases e : collectResults d rq n with
        | none => rw [e] at h; simp at h
        | some p =>
          obtain ⟨ts', rest'⟩ := p
          rw [e] at h
          simp only [Option.map_some', Option.some.injEq, Prod.mk.injEq] at h
          obtain ⟨hts, hrest⟩ := h
          obtain ⟨consumed, hq, hts', hlen, hz, hlast⟩ := ih n ts' rest' e
          subst hrest
          refine ⟨r :: consumed, by simp [hq], ?_, ?_, ?_, ?_⟩
          · rw [← hts]
            simp [List.filter_cons, hd, hts']
          · simp [List.filter_cons, hd, hlen]
          · intro h0; exact absurd h0 (Nat.succ_ne_zero n)
          · intro _
            rcases Nat.eq_zero_or_pos n with hn0 | hnpos
            · subst hn0
              exact ⟨[], r, by simp [hz rfl], hd⟩
            · obtain ⟨c, r', hc, hr'⟩ := hlast hnpos
              exact ⟨r :: c, r', by simp [hc], hr'⟩
      · rw [collectResults, if_neg hd] at h
        obtain ⟨consumed, hq, hts', hlen, _, hlast⟩ := ih (n + 1) ts rest h
        refine ⟨r :: consumed, by simp [hq], ?_, ?_, ?_, ?_⟩
        · simp [List.filter_cons, hd, hts']
        · simp [List.filter_cons, hd, hlen]
        · intro h0; exact absurd h0 (Nat.succ_ne_zero n)
        · intro _
          obtain ⟨c, r', hc, hr'⟩ := hlast (Nat.succ_pos n)
          exact ⟨r :: c, r', by simp [hc], hr'⟩

/-- Completeness of the collection loop: as long as the queue holds at
least `n` results tagged with `d`, the loop returns. -/
theorem collectResults_complete (d : String) :
    ∀ (q : List SegmentResult) (n : Nat),
      n ≤ (q.filter fun r => r.doc_id == d).length →
      ∃ ts rest, collectResults d q n = some (ts, rest) := by
  intro q
  induction q with
  | nil =>
    intro n hn
    simp only [List.filter_nil, List.length_nil, Nat.le_zero] at hn
    subst hn
    exact ⟨[], [], rfl⟩
  | cons r rq ih =>
    intro n hn
    match n with
    | 0 => exact ⟨[], r :: rq, rfl⟩
    | n + 1 =>
      by_cases hd : r.doc_id = d
      · have hn' : n ≤ (rq.filter fun r => r.doc_id == d).length := by
          simp [List.filter_cons, hd] at hn
          omega
        obtain ⟨ts, rest, e⟩ := ih n hn'
        exact ⟨r.triplets ++ ts, rest, by rw [collectResults, if_pos hd, e]; rfl⟩
      · have hn' : n + 1 ≤ (rq.filter fun r => r.doc_id == d).length := by
          simpa [List.filter_cons, hd] using hn
        obtain ⟨ts, rest, e⟩ := ih (n + 1) hn'
        exact ⟨ts, rest, by rw [collectResults, if_neg hd]; exact e⟩

/-- Collecting `k` results from a queue of exactly `k` matching
empty-triplet results yields no triplets and empties the queue. -/
theorem collectResults_replicate_empty (d : String) :
    ∀ k : Nat, collectResults d (List.replicate k ⟨d, []⟩) k = some ([], []) := by
  intro k
  induction k with
  | zero => rfl
  | succ n ih =>
    rw [List.replicate_succ, collectResults, if_pos rfl, ih]
    rfl

/-- Mapping a constant yields a replicate. -/
theorem map_const_replicate {α β : Type} (c : β) :
    ∀ l : List α, l.map (fun _ => c) = List.replicate l.length c := by
  intro l
  induction l with
  | nil => rfl
  | cons a l ih => simp [List.replicate_succ, ih]

/-! ## Theorems for the claims (first group) -/

/-- Claim C1 (counterexample): on the spec's example input the parser does
not return the triplet the spec names — in the code's grammar the tokens
between the two type tags form the tail, and the trailing tokens form the
relation, so `relation` and `tail` come out swapped relative to the claim. -/
theorem parser_example_claim_false :
    extract_triplets_typed "<triplet> Apple <org> headquartered in <loc> Cupertino" ≠
      [{ head := "Apple", head_type := "org", type := "headquartered in",
         tail := "Cupertino", tail_type := "loc" }] := by
  decide

/-- Claim C1 (amended): for the input string
`"<triplet> Apple <org> headquartered in <loc> Cupertino"` the parser
returns exactly one Triplet with head `"Apple"`, head_type `"org"`,
relation `"Cupertino"`, tail `"headquartered in"` and tail_type `"loc"`:
the linearization is `<triplet> head <head_type> tail <tail_type>
relation`. -/
theorem parser_example_actual_output :
    extract_triplets_typed "<triplet> Apple <org> headquartered in <loc> Cupertino" =
      [{ head := "Apple", head_type := "org", type := "Cupertino",
         tail := "headquartered in", tail_type := "loc" }] := by
  decide

/-- Claim C5: the parser is total — for every input string it returns a
(possibly empty) list of triplets; the empty string and a malformed
tagged stream yield the empty list rather than an error. -/
theorem parser_is_total :
    (∀ text : String, ∃ ts : List Triplet, extract_triplets_typed text = ts) ∧
    extract_triplets_typed "" = [] ∧
    extract_triplets_typed "<triplet> <loc> </s>" = [] :=
  ⟨fun _ => ⟨_, rfl⟩, by decide, by decide⟩

/-- Claim C10: `process_segment` returns the empty triplet list without
invoking the inference capability whenever the segment's token length
exceeds the safe budget (the invocation count is 0). -/
theorem oversized_segment_skips_inference (tokLen : String → Nat) (safe : Nat)
    (infer : String → InferResult) (segment : String)
    (h : safe < tokLen segment) :
    processSegmentRun tokLen safe infer segment = ([], 0) ∧
    process_segment tokLen safe infer segment = [] := by
  refine ⟨?_, ?_⟩ <;> simp [processSegmentRun, process_segment, h]

/-- Witness for C10 at a concrete oversized segment. -/
theorem oversized_segment_skips_inference_witness :
    (3 < String.length "abcde") ∧
    processSegmentRun String.length 3 (fun _ => .decoded "x") "abcde" = ([], 0) ∧
    process_segment String.length 3 (fun _ => .decoded "x") "abcde" = [] :=
  ⟨by decide,
   (oversized_segment_skips_inference String.length 3 (fun _ => .decoded "x") "abcde"
      (by decide)).1,
   (oversized_segment_skips_inference String.length 3 (fun _ => .decoded "x") "abcde"
      (by decide)).2⟩

/-- Claim C8: once stop is signalled, the worker processes every item
still in the input queue — one `SegmentResult` per item, in queue
order — and only then exits its loop; nothing enqueued is abandoned.
(Requires a positive batch size; with `batchSize = 0` the loop can never
fill a batch and the real worker breaks immediately.) -/
theorem stop_drains_pending_items (batchSize : Nat) (f : WorkItem → SegmentResult)
    (items : List WorkItem) (hbs : 0 < batchSize) :
    drainQueue batchSize f items = items.map f :=
  drainFuel_eq_map batchSize f hbs items.length items (Nat.le_refl _)

/-- Witness for C8 with the default batch size and three queued items. -/
theorem stop_drains_pending_items_witness :
    (0 < 8) ∧
    drainQueue 8 (fun it => ⟨it.doc_id, []⟩)
        [⟨"d1", "s1", "en_XX"⟩, ⟨"d1", "s2", "en_XX"⟩, ⟨"d2", "s3", "en_XX"⟩] =
      [⟨"d1", []⟩, ⟨"d1", []⟩, ⟨"d2", []⟩] := by
  refine ⟨by decide, ?_⟩
  rw [stop_drains_pending_items 8 (fun it => ⟨it.doc_id, []⟩)
    [⟨"d1", "s1", "en_XX"⟩, ⟨"d1", "s2", "en_XX"⟩, ⟨"d2", "s3", "en_XX"⟩] (by decide)]
  rfl

/-- Claim C2 (counterexample): with one in-flight result for `doc2`
interleaved ahead of `doc1`'s result, collecting for `doc1` consumes the
`doc2` result and drops it — it is neither kept in the remaining queue
(which comes back empty) nor reflected anywhere in `doc1`'s output — so a
subsequent collection for `doc2` on the remaining queue finds nothing
(the real loop would wait forever). The claimed buffering/redistribution
does not exist in the code. -/
theorem foreign_result_discarded_cex :
    correlateDocument "doc1" "en_XX" 1
        [⟨"doc2", [⟨"Tesla", "org", "led by", "Elon Musk", "per"⟩]⟩, ⟨"doc1", []⟩] =
      some (⟨"doc1", "en_XX", [], 1⟩, []) ∧
    collectResults "doc2" [] 1 = none := by
  exact ⟨by decide, rfl⟩

/-- Claim C2 (amended): while the correlator collects results for
document `d`, any `SegmentResult` taken from the output queue whose
`doc_id` differs from `d` is discarded, not buffered: the queue splits
into the consumed prefix and the untouched remainder, and the collected
triplets depend only on the `d`-tagged entries of that prefix — the
foreign entries reach neither the collected output nor the remaining
queue. -/
theorem foreign_results_are_discarded (d : String) (q : List SegmentResult)
    (n : Nat) (ts : List Triplet) (rest : List SegmentResult)
    (h : collectResults d q n = some (ts, rest)) :
    ∃ consumed : List SegmentResult,
      q = consumed ++ rest ∧
      ts = ((consumed.filter fun r => r.doc_id == d).map SegmentResult.triplets).flatten := by
  obtain ⟨consumed, hq, hts, _, _, _⟩ := collectResults_sound d q n ts rest h
  exact ⟨consumed, hq, hts⟩

/-- Witness for the amended C2 at a concrete two-entry queue. -/
theorem foreign_results_are_discarded_witness :
    (collectResults "doc1"
        [⟨"doc2", [⟨"a", "b", "c", "d", "e"⟩]⟩, ⟨"doc1", []⟩] 1 = some ([], [])) ∧
    (∃ consumed : List SegmentResult,
      [⟨"doc2", [⟨"a", "b", "c", "d", "e"⟩]⟩, (⟨"doc1", []⟩ : SegmentResult)] =
        consumed ++ [] ∧
      ([] : List Triplet) =
        ((consumed.filter fun r => r.doc_id == "doc1").map
          SegmentResult.triplets).flatten) :=
  ⟨by decide,
   foreign_results_are_discarded "doc1"
     [⟨"doc2", [⟨"a", "b", "c", "d", "e"⟩]⟩, ⟨"doc1", []⟩] 1 [] [] (by decide)⟩

/-- Claim C3: for a document whose segmenter produced `N` segments, as
soon as the output queue interleaving supplies at least `N` results
tagged with the document id, the correlator emits exactly one
`DocumentResult` whose `num_segments` equals `N`; it is emitted exactly
when the `N`-th result tagged with that id is observed (the consumed
prefix holds exactly `N` matching results and ends with a matching
one), regardless of how other documents' results interleave. -/
theorem document_result_completion_count (d lang : String)
    (segments : List String) (queue : List SegmentResult)
    (h : segments.length ≤ (queue.filter fun r => r.doc_id == d).length) :
    ∃ (dr : DocumentResult) (rest consumed : List SegmentResult),
      correlateDocument d lang segments.length queue = some (dr, rest) ∧
      dr.doc_id = d ∧
      dr.num_segments = segments.length ∧
      queue = consumed ++ rest ∧
      (consumed.filter fun r => r.doc_id == d).length = segments.length ∧
      (0 < segments.length → ∃ c r, consumed = c ++ [r] ∧ r.doc_id = d) := by
  obtain ⟨ts, rest, e⟩ := collectResults_complete d queue segments.length h
  obtain ⟨consumed, hq, _, hlen, _, hlast⟩ :=
    collectResults_sound d queue segments.length ts rest e
  exact ⟨⟨d, lang, ts, segments.length⟩, rest, consumed,
    by rw [correlateDocument, e]; rfl, rfl, rfl, hq, hlen, hlast⟩

/-- Witness for C3: two segments, queue interleaving results of two
documents. -/
theorem document_result_completion_count_witness :
    ((["s1", "s2"] : List String).length ≤
      (([⟨"doc2", []⟩, ⟨"doc1", []⟩, ⟨"doc2", []⟩, ⟨"doc1", []⟩] :
        List SegmentResult).filter fun r => r.doc_id == "doc1").length) ∧
    (∃ (dr : DocumentResult) (rest consumed : List SegmentResult),
      correlateDocument "doc1" "en_XX" (["s1", "s2"] : List String).length
          [⟨"doc2", []⟩, ⟨"doc1", []⟩, ⟨"doc2", []⟩, ⟨"doc1", []⟩] =
        some (dr, rest) ∧
      dr.doc_id = "doc1" ∧
      dr.num_segments = (["s1", "s2"] : List String).length ∧
      ([⟨"doc2", []⟩, ⟨"doc1", []⟩, ⟨"doc2", []⟩, ⟨"doc1", []⟩] :
        List SegmentResult) = consumed ++ rest ∧
      (consumed.filter fun r => r.doc_id == "doc1").length =
        (["s1", "s2"] : List String).length ∧
      (0 < (["s1", "s2"] : List String).length →
        ∃ c r, consumed = c ++ [r] ∧ r.doc_id = "doc1")) :=
  ⟨by decide,
   document_result_completion_count "doc1" "en_XX" ["s1", "s2"]
     [⟨"doc2", []⟩, ⟨"doc1", []⟩, ⟨"doc2", []⟩, ⟨"doc1", []⟩] (by decide)⟩

/-- A segment whose inference call raises yields the empty triplet list
(the worker-side degradation of `process_segment`). -/
theorem process_segment_raises (tokLen : String → Nat) (safe : Nat)
    (infer : String → InferResult) (seg : String)
    (hf : infer seg = .raises) :
    process_segment tokLen safe infer seg = [] := by
  unfold process_segment processSegmentRun
  split
  · rfl
  · rw [hf]

/-- Claim C9: if every inference call fails, the worker still enqueues one
empty-triplet `SegmentResult` per work item (nothing dropped, nothing
propagated), and a document of `N` segments still yields exactly one
`DocumentResult` with no triplets and `num_segments = N`; the correlation
terminates (no hang). -/
theorem failing_inference_degrades_gracefully (tokLen : String → Nat)
    (safe : Nat) (infer : String → InferResult) (batchSize : Nat)
    (d lang : String) (segments : List String) (hbs : 0 < batchSize)
    (hfail : ∀ s, infer s = .raises) :
    drainQueue batchSize (workerStep tokLen safe infer)
        (segments.map fun seg => ⟨d, seg, lang⟩) =
      segments.map (fun _ => ⟨d, []⟩) ∧
    correlateDocument d lang segments.length
        (drainQueue batchSize (workerStep tokLen safe infer)
          (segments.map fun seg => ⟨d, seg, lang⟩)) =
      some (⟨d, lang, [], segments.length⟩, []) := by
  have h1 : drainQueue batchSize (workerStep tokLen safe infer)
      (segments.map fun seg => ⟨d, seg, lang⟩) =
      segments.map (fun _ => ⟨d, []⟩) := by
    rw [drainQueue_eq_map _ _ _ hbs, List.map_map]
    refine List.map_congr_left fun seg _ => ?_
    show workerStep tokLen safe infer ⟨d, seg, lang⟩ = ⟨d, []⟩
    rw [workerStep, process_segment_raises tokLen safe infer seg (hfail seg)]
  refine ⟨h1, ?_⟩
  rw [h1, map_const_replicate, correlateDocument,
    collectResults_replicate_empty]
  rfl

/-! ## Field non-emptiness of emitted triplets (Claim C4) -/

/-- All five fields of a triplet are non-empty. -/
def fieldsNonempty (t : Triplet) : Prop :=
  t.head ≠ "" ∧ t.head_type ≠ "" ∧ t.type ≠ "" ∧ t.tail ≠ "" ∧ t.tail_type ≠ ""

/-- A string built from a non-empty character list is non-empty. -/
theorem stringMk_ne_empty {l : List Char} (h : l ≠ []) : (⟨l⟩ : String) ≠ "" :=
  fun he => h (congrArg String.data he)

/-- A non-whitespace member survives `dropWhile isWhitespace`. -/
theorem mem_dropWhile_of_not_ws {c : Char} :
    ∀ l : List Char, c ∈ l → ¬ c.isWhitespace →
      c ∈ l.dropWhile Char.isWhitespace := by
  intro l
  induction l with
  | nil => intro h _; cases h
  | cons a l ih =>
    intro hm hw
    by_cases ha : a.isWhitespace
    · simp only [List.dropWhile_cons, ha, if_true]
      rcases List.mem_cons.mp hm with rfl | hm'
      · exact absurd ha hw
      · exact ih hm' hw
    · simp only [List.dropWhile_cons, ha, if_false]
      exact hm

/-- A string holding at least one non-whitespace character does not
strip to the empty string. -/
theorem pyStrip_ne_empty_of_mem {c : Char} {s : String} (hc : c ∈ s.data)
    (hw : ¬ c.isWhitespace) : pyStrip s ≠ "" := by
  apply stringMk_ne_empty
  apply List.ne_nil_of_mem (a := c)
  unfold pyStripList
  rw [List.mem_reverse]
  apply mem_dropWhile_of_not_ws _ _ hw
  rw [List.mem_reverse]
  exact mem_dropWhile_of_not_ws _ hc hw

/-- The underlying characters of a string concatenation. -/
theorem string_data_append (a b : String) : (a ++ b).data = a.data ++ b.data := by
  cases a
  cases b
  rfl

/-- Appending `' ' + token` for a whitespace-free non-empty token makes
the accumulator strip to something non-empty. -/
theorem append_token_strip_ne_empty (a tok : String) (hne : tok.data ≠ [])
    (hw : ∀ c ∈ tok.data, ¬ c.isWhitespace) :
    pyStrip (a ++ " " ++ tok) ≠ "" := by
  obtain ⟨c, hc⟩ := List.exists_mem_of_ne_nil tok.data hne
  refine pyStrip_ne_empty_of_mem (c := c) ?_ (hw c hc)
  rw [string_data_append]
  exact List.mem_append_right _ hc

/-- A well-formed token of the whitespace tokenizer: non-empty, with no
whitespace characters. -/
def goodToken (tok : String) : Prop :=
  tok.data ≠ [] ∧ ∀ c ∈ tok.data, ¬ c.isWhitespace

/-- Every word `wordsAux` produces is a good token. -/
theorem wordsAux_goodTokens :
    ∀ (l acc : List Char), (∀ c ∈ acc, ¬ c.isWhitespace) →
      ∀ tok ∈ wordsAux l acc, goodToken tok := by
  intro l
  induction l with
  | nil =>
    intro acc hacc tok htok
    unfold wordsAux at htok
    split at htok
    · cases htok
    · rcases List.mem_singleton.mp htok with rfl
      refine ⟨by simpa using ‹¬ acc = []›, ?_⟩
      intro c hc
      exact hacc c (List.mem_reverse.mp hc)
  | cons ch cs ih =>
    intro acc hacc tok htok
    unfold wordsAux at htok
    by_cases hw : ch.isWhitespace
    · rw [if_pos hw] at htok
      by_cases ha : acc = []
      · rw [if_pos ha] at htok
        exact ih [] (by simp) tok htok
      · rw [if_neg ha] at htok
        rcases List.mem_cons.mp htok with rfl | htok'
        · refine ⟨by simpa using ha, ?_⟩
          intro c hc
          exact hacc c (List.mem_reverse.mp hc)
        · exact ih [] (by simp) tok htok'
    · rw [if_neg hw] at htok
      refine ih (ch :: acc) ?_ tok htok
      intro c hc
      rcases List.mem_cons.mp hc with rfl | hc'
      · exact hw
      · exact hacc c hc'

/-- Every token of Python `str.split()` is non-empty and free of
whitespace. -/
theorem pySplit_goodTokens (s : String) : ∀ tok ∈ pySplit s, goodToken tok :=
  wordsAux_goodTokens s.data [] (by simp)

/-- The parser-state invariant: each text accumulator is either still
empty or strips to a non-empty string, and every already-emitted triplet
has all fields non-empty. -/
def stInv (st : ParseState) : Prop :=
  (st.subject = "" ∨ pyStrip st.subject ≠ "") ∧
  (st.relation = "" ∨ pyStrip st.relation ≠ "") ∧
  (st.object_ = "" ∨ pyStrip st.object_ ≠ "") ∧
  ∀ t ∈ st.triplets, fieldsNonempty t

/-- The `all(triplet.values())` guard implies field non-emptiness. -/
theorem fieldsNonempty_of_complete {t : Triplet}
    (h : tripletComplete t = true) : fieldsNonempty t := by
  simp only [tripletComplete, Bool.and_eq_true, decide_eq_true_eq] at h
  obtain ⟨⟨⟨⟨h1, h2⟩, h3⟩, h4⟩, h5⟩ := h
  exact ⟨h1, h2, h3, h4, h5⟩

/-- One parser step preserves the invariant, for any good token. -/
theorem stepToken_preserves (st : ParseState) (tok : String)
    (hg : goodToken tok) (hst : stInv st) : stInv (stepToken st tok) := by
  obtain ⟨hs, hr, ho, htr⟩ := hst
  have htrip : ∀ b : Bool, ∀ t ∈ (if b then st.triplets ++ [mkTriplet st] else st.triplets),
      b = tripletComplete (mkTriplet st) → fieldsNonempty t := by
    intro b t ht hb
    cases b with
    | false => exact htr t ht
    | true =>
      rcases List.mem_append.mp ht with h1 | h2
      · exact htr t h1
      · rcases List.mem_singleton.mp h2 with rfl
        exact fieldsNonempty_of_complete hb.symm

  unfold stepToken
  by_cases h1 : (tok = "<triplet>" || tok = "<relation>") = true
  · rw [if_pos h1]
    by_cases hrel : st.relation ≠ ""
    · simp only [if_pos hrel]
      refine ⟨Or.inl rfl, Or.inl rfl, ho, ?_⟩
      intro t ht
      simp only at ht
      split at ht
      · rcases List.mem_append.mp ht with ha | hb
        · exact htr t ha
        · rcases List.mem_singleton.mp hb with rfl
          exact fieldsNonempty_of_complete (by assumption)
      · exact htr t ht
    · simp only [if_neg hrel]
      exact ⟨Or.inl rfl, hr, ho, htr⟩
  · rw [if_neg h1]
    by_cases h2 : isTagToken tok = true
    · rw [if_pos h2]
      by_cases h3 : (st.current = PState.t || st.current = PState.o) = true
      · rw [if_pos h3]
        by_cases hrel : st.relation ≠ ""
        · simp only [if_pos hrel]
          refine ⟨hs, hr, Or.inl rfl, ?_⟩
          intro t ht
          simp only at ht
          split at ht
          · rcases List.mem_append.mp ht with ha | hb
            · exact htr t ha
            · rcases List.mem_singleton.mp hb with rfl
              exact fieldsNonempty_of_complete (by assumption)
          · exact htr t ht
        · simp only [if_neg hrel]
          exact ⟨hs, hr, Or.inl rfl, htr⟩
      · rw [if_neg h3]
        exact ⟨hs, Or.inl rfl, ho, htr⟩
    · rw [if_neg h2]
      cases hcur : st.current with
      | t =>
        refine ⟨Or.inr ?_, hr, ho, htr⟩
        exact append_token_strip_ne_empty _ _ hg.1 hg.2
      | s =>
        refine ⟨hs, hr, Or.inr ?_, htr⟩
        exact append_token_strip_ne_empty _ _ hg.1 hg.2
      | o =>
        refine ⟨hs, Or.inr ?_, ho, htr⟩
        exact append_token_strip_ne_empty _ _ hg.1 hg.2
      | x => exact ⟨hs, hr, ho, htr⟩

/-- The fold over any list of good tokens preserves the invariant. -/
theorem foldlStep_preserves (tokens : List String) :
    ∀ st, (∀ tok ∈ tokens, goodToken tok) → stInv st →
      stInv (tokens.foldl stepToken st) := by
  induction tokens with
  | nil => intro st _ h; exact h
  | cons tok toks ih =>
    intro st hg h
    exact ih _ (fun t ht => hg t (List.mem_cons_of_mem _ ht))
      (stepToken_preserves st tok (hg tok (List.mem_cons_self _ _)) h)

/-- The end-of-stream flush only emits complete triplets. -/
theorem finishTriplets_fields (st : ParseState) (h : stInv st) :
    ∀ t ∈ finishTriplets st, fieldsNonempty t := by
  obtain ⟨hs, hr, ho, htr⟩ := h
  intro t ht
  unfold finishTriplets at ht
  split at ht
  case isTrue hcond =>
    rcases List.mem_append.mp ht with h1 | h2
    · exact htr t h1
    · rcases List.mem_singleton.mp h2 with rfl
      simp only [Bool.and_eq_true, decide_eq_true_eq] at hcond
      obtain ⟨⟨⟨⟨c1, c2⟩, c3⟩, c4⟩, c5⟩ := hcond
      exact ⟨hs.resolve_left c1, c5, hr.resolve_left c2, ho.resolve_left c3, c4⟩
  case isFalse _ => exact htr t ht

/-- Claim C4: every triplet the parser emits — at any of its flush
points — has all five fields non-empty; a candidate with an empty field
is dropped, never emitted partially. -/
theorem emitted_triplet_fields_nonempty (text : String) (t : Triplet)
    (ht : t ∈ extract_triplets_typed text) :
    t.head ≠ "" ∧ t.head_type ≠ "" ∧ t.type ≠ "" ∧
      t.tail ≠ "" ∧ t.tail_type ≠ "" := by
  unfold extract_triplets_typed at ht
  split at ht
  · cases ht
  · refine finishTriplets_fields _ ?_ t ht
    refine foldlStep_preserves _ _ (fun tok htok => pySplit_goodTokens _ tok htok) ?_
    exact ⟨Or.inl rfl, Or.inl rfl, Or.inl rfl, fun t h => absurd h (List.not_mem_nil t)⟩

/-- Witness for C4 at the concrete example input and its emitted
triplet. -/
theorem emitted_triplet_fields_nonempty_witness :
    ((⟨"Apple", "org", "Cupertino", "headquartered in", "loc"⟩ : Triplet) ∈
      extract_triplets_typed "<triplet> Apple <org> headquartered in <loc> Cupertino") ∧
    (("Apple" : String) ≠ "" ∧ ("org" : String) ≠ "" ∧ ("Cupertino" : String) ≠ "" ∧
      ("headquartered in" : String) ≠ "" ∧ ("loc" : String) ≠ "") :=
  ⟨by decide,
   emitted_triplet_fields_nonempty
     "<triplet> Apple <org> headquartered in <loc> Cupertino"
     ⟨"Apple", "org", "Cupertino", "headquartered in", "loc"⟩ (by decide)⟩

/-- Witness for C9: two segments, inference always raising. -/
theorem failing_inference_degrades_gracefully_witness :
    (0 < 8) ∧
    drainQueue 8 (workerStep String.length 100 (fun _ => .raises))
        ((["s1", "s2"] : List String).map fun seg => ⟨"doc1", seg, "en_XX"⟩) =
      (["s1", "s2"] : List String).map (fun _ => ⟨"doc1", []⟩) ∧
    correlateDocument "doc1" "en_XX" (["s1", "s2"] : List String).length
        (drainQueue 8 (workerStep String.length 100 (fun _ => .raises))
          ((["s1", "s2"] : List String).map fun seg => ⟨"doc1", seg, "en_XX"⟩)) =
      some (⟨"doc1", "en_XX", [], (["s1", "s2"] : List String).length⟩, []) := by
  refine ⟨by decide, ?_, ?_⟩
  · exact (failing_inference_degrades_gracefully String.length 100
      (fun _ => .raises) 8 "doc1" "en_XX" ["s1", "s2"] (by decide) (fun _ => rfl)).1
  · exact (failing_inference_degrades_gracefully String.length 100
      (fun _ => .raises) 8 "doc1" "en_XX" ["s1", "s2"] (by decide) (fun _ => rfl)).2

/-! ## Content preservation of the segmenter (Claim C7) -/

/-- String concatenation is associative. -/
theorem string_append_assoc (a b c : String) : a ++ b ++ c = a ++ (b ++ c) := by
  cases a
  cases b
  cases c
  show String.mk _ = String.mk _
  rw [List.append_assoc]

/-- `' '.join` turns list concatenation into string concatenation with a
single separating space (for non-empty halves). -/
theorem joinSp_append (b : List String) (hb : b ≠ []) :
    ∀ a : List String, a ≠ [] → joinSp (a ++ b) = joinSp a ++ " " ++ joinSp b := by
  intro a
  induction a with
  | nil => intro ha; exact absurd rfl ha
  | cons w ws ih =>
    intro _
    cases ws with
    | nil =>
      cases b with
      | nil => exact absurd rfl hb
      | cons x bs => rfl
    | cons w2 ws2 =>
      have key := ih (by simp)
      have h1 : joinSp ((w :: w2 :: ws2) ++ b) =
          w ++ " " ++ joinSp ((w2 :: ws2) ++ b) := rfl
      have h2 : joinSp (w :: w2 :: ws2) = w ++ " " ++ joinSp (w2 :: ws2) := rfl
      rw [h1, h2, key]
      simp only [string_append_assoc]

/-- Joining the per-group joins equals joining the flattened units, for
groups that are all non-empty. -/
theorem joinSp_flatten :
    ∀ gs : List (List String), (∀ g ∈ gs, g ≠ []) →
      joinSp (gs.map joinSp) = joinSp gs.flatten := by
  intro gs
  induction gs with
  | nil => intro _; rfl
  | cons g gs ih =>
    intro h
    have hg : g ≠ [] := h g (List.mem_cons_self _ _)
    cases gs with
    | nil =>
      show joinSp g = joinSp ([g] : List (List String)).flatten
      rw [show ([g] : List (List String)).flatten = g ++ [] from rfl, List.append_nil]
    | cons g2 gs2 =>
      have hrec := ih fun g' hg' => h g' (List.mem_cons_of_mem _ hg')
      have hg2 : g2 ≠ [] := h g2 (List.mem_cons_of_mem _ (List.mem_cons_self _ _))
      have hflat : (g2 :: gs2).flatten ≠ [] := by
        simp only [List.flatten_cons]
        intro hcontra
        exact hg2 (List.append_eq_nil.mp hcontra).1
      have step1 : joinSp ((g :: g2 :: gs2).map joinSp) =
          joinSp g ++ " " ++ joinSp ((g2 :: gs2).map joinSp) := rfl
      rw [step1, hrec,
        show (g :: g2 :: gs2).flatten = g ++ (g2 :: gs2).flatten from rfl,
        joinSp_append _ hflat g hg]

/-- The unit decomposition of the input: an oversized sentence
contributes its words, any other sentence contributes itself. -/
def unitsOf (tokLen : String → Nat) (safe : Nat) (sentences : List String) :
    List String :=
  (sentences.map fun s => if safe < tokLen s then pySplit s else [s]).flatten

/-- The word-repacking loop emits its input words in order, in non-empty
groups, keeping the not-yet-flushed group in `temp`. -/
theorem packWords_content (tokLen : String → Nat) (safe : Nat) :
    ∀ (ws temp : List String) (tlen : Nat),
      ∃ gs : List (List String),
        (packWords tokLen safe ws temp tlen).1 = gs.map joinSp ∧
        gs.flatten ++ (packWords tokLen safe ws temp tlen).2.1 = temp ++ ws ∧
        ∀ g ∈ gs, g ≠ [] := by
  intro ws
  induction ws with
  | nil =>
    intro temp tlen
    exact ⟨[], rfl, by simp [packWords], fun g h => absurd h (List.not_mem_nil g)⟩
  | cons w ws ih =>
    intro temp tlen
    by_cases hov : safe < tlen + tokLen (w ++ " ")
    · obtain ⟨gs, h1, h2, h3⟩ := ih [w] (tokLen (w ++ " "))
      by_cases htemp : temp ≠ []
      · refine ⟨temp :: gs, ?_, ?_, ?_⟩
        · simp only [packWords, if_pos hov, if_pos htemp, h1, List.map_cons,
            List.singleton_append]
        · simp only [packWords, if_pos hov, List.flatten_cons, List.append_assoc, h2]
          simp
        · intro g hg
          rcases List.mem_cons.mp hg with rfl | hg'
          · exact htemp
          · exact h3 g hg'
      · have htemp' : temp = [] := by simpa using htemp
        subst htemp'
        refine ⟨gs, ?_, ?_, h3⟩
        · simp only [packWords, if_pos hov, if_neg htemp, List.nil_append]
          exact h1
        · simp only [packWords, if_pos hov, h2]
          simp
    · obtain ⟨gs, h1, h2, h3⟩ := ih (temp ++ [w]) (tlen + tokLen (w ++ " "))
      refine ⟨gs, ?_, ?_, h3⟩
      · simp only [packWords, if_neg hov, h1]
      · simp only [packWords, if_neg hov, h2]
        simp

/-- The oversized-sentence fallback emits exactly the sentence's words,
in order, in non-empty groups. -/
theorem splitLongSentence_content (tokLen : String → Nat) (safe : Nat)
    (sentence : String) :
    ∃ gs : List (List String),
      splitLongSentence tokLen safe sentence = gs.map joinSp ∧
      gs.flatten = pySplit sentence ∧
      ∀ g ∈ gs, g ≠ [] := by
  obtain ⟨gs, h1, h2, h3⟩ := packWords_content tokLen safe (pySplit sentence) [] 0
  rw [List.nil_append] at h2
  by_cases ht : (packWords tokLen safe (pySplit sentence) [] 0).2.1 ≠ []
  · refine ⟨gs ++ [(packWords tokLen safe (pySplit sentence) [] 0).2.1], ?_, ?_, ?_⟩
    · unfold splitLongSentence
      rw [if_pos ht, h1, List.map_append]
      rfl
    · rw [List.flatten_append]
      simpa using h2
    · intro g hg
      rcases List.mem_append.mp hg with hg' | hg''
      · exact h3 g hg'
      · rcases List.mem_singleton.mp hg'' with rfl
        exact ht
  · have ht' : (packWords tokLen safe (pySplit sentence) [] 0).2.1 = [] := by
      simpa using ht
    refine ⟨gs, ?_, ?_, h3⟩
    · unfold splitLongSentence
      rw [if_neg ht, h1, List.append_nil]
    · rw [ht', List.append_nil] at h2
      exact h2


/-- Unit decomposition of a sentence list, one step. -/
theorem unitsOf_cons (tokLen : String → Nat) (safe : Nat) (s : String)
    (ss : List String) :
    unitsOf tokLen safe (s :: ss) =
      (if safe < tokLen s then pySplit s else [s]) ++ unitsOf tokLen safe ss := by
  simp [unitsOf]

/-- The sentence-packing loop emits the units of its input in order, in
non-empty groups, with `cur` prepended. -/
theorem segmentLoop_content (tokLen : String → Nat) (safe : Nat) :
    ∀ (ss cur : List String) (clen : Nat),
      ∃ gs : List (List String),
        segmentLoop tokLen safe ss cur clen = gs.map joinSp ∧
        gs.flatten = cur ++ unitsOf tokLen safe ss ∧
        ∀ g ∈ gs, g ≠ [] := by
  intro ss
  induction ss with
  | nil =>
    intro cur clen
    by_cases hc : cur ≠ []
    · exact ⟨[cur], by simp [segmentLoop, hc], by simp [unitsOf], by simp [hc]⟩
    · have hc' : cur = [] := by simpa using hc
      subst hc'
      exact ⟨[], by simp [segmentLoop], by simp [unitsOf], by simp⟩
  | cons s ss ih =>
    intro cur clen
    by_cases hov : safe < tokLen s
    · obtain ⟨gsw, hw1, hw2, hw3⟩ := splitLongSentence_content tokLen safe s
      obtain ⟨gsr, hr1, hr2, hr3⟩ := ih [] 0
      rw [List.nil_append] at hr2
      by_cases hc : cur ≠ []
      · refine ⟨cur :: (gsw ++ gsr), ?_, ?_, ?_⟩
        · simp only [segmentLoop, if_pos hov, if_pos hc, hw1, hr1, List.map_cons,
            List.map_append, List.singleton_append, List.append_assoc,
            List.cons_append, List.nil_append]
        · rw [unitsOf_cons, if_pos hov]
          simp only [List.flatten_cons, List.flatten_append, hw2, hr2]
        · intro g hg
          rcases List.mem_cons.mp hg with rfl | hg'
          · exact hc
          · rcases List.mem_append.mp hg' with hx | hx
            · exact hw3 g hx
            · exact hr3 g hx
      · have hc' : cur = [] := by simpa using hc
        subst hc'
        refine ⟨gsw ++ gsr, ?_, ?_, ?_⟩
        · simp only [segmentLoop, if_pos hov, if_neg hc, hw1, hr1, List.map_append,
            List.nil_append]
        · rw [unitsOf_cons, if_pos hov]
          simp only [List.flatten_append, hw2, hr2, List.nil_append]
        · intro g hg
          rcases List.mem_append.mp hg with hx | hx
          · exact hw3 g hx
          · exact hr3 g hx
    · by_cases hfit : safe < clen + tokLen s
      · obtain ⟨gsr, hr1, hr2, hr3⟩ := ih [s] (tokLen s)
        by_cases hc : cur ≠ []
        · refine ⟨cur :: gsr, ?_, ?_, ?_⟩
          · simp only [segmentLoop, if_neg hov, if_pos hfit, if_pos hc, hr1,
              List.map_cons, List.singleton_append]
          · rw [unitsOf_cons, if_neg hov]
            simp only [List.flatten_cons, hr2, List.singleton_append]
          · intro g hg
            rcases List.mem_cons.mp hg with rfl | hg'
            · exact hc
            · exact hr3 g hg'
        · have hc' : cur = [] := by simpa using hc
          subst hc'
          refine ⟨gsr, ?_, ?_, hr3⟩
          · simp only [segmentLoop, if_neg hov, if_pos hfit, if_neg hc, hr1,
              List.nil_append]
          · rw [unitsOf_cons, if_neg hov]
            simp only [hr2, List.singleton_append, List.nil_append]
      · obtain ⟨gsr, hr1, hr2, hr3⟩ := ih (cur ++ [s]) (clen + tokLen s)
        refine ⟨gsr, ?_, ?_, hr3⟩
        · simp only [segmentLoop, if_neg hov, if_neg hfit, hr1]
        · rw [unitsOf_cons, if_neg hov, hr2, List.append_assoc, List.singleton_append]

/-- Claim C7: the segments output by `segment_document` are exactly a
grouping of the input's units (each sentence itself, or — for an
oversized sentence — its words), in order, with no unit dropped or
duplicated; consequently joining all segments with single spaces
reproduces the whitespace-normalized sentence content. -/
theorem segmentation_preserves_content (tokLen : String → Nat) (safe : Nat)
    (sentences : List String) :
    ∃ gs : List (List String),
      segment_document tokLen safe sentences = gs.map joinSp ∧
      gs.flatten = unitsOf tokLen safe sentences ∧
      (∀ g ∈ gs, g ≠ []) ∧
      joinSp (segment_document tokLen safe sentences) =
        joinSp (unitsOf tokLen safe sentences) := by
  obtain ⟨gs, h1, h2, h3⟩ := segmentLoop_content tokLen safe sentences [] 0
  rw [List.nil_append] at h2
  refine ⟨gs, h1, h2, h3, ?_⟩
  rw [show segment_document tokLen safe sentences =
      segmentLoop tokLen safe sentences [] 0 from rfl, h1, ← h2,
    joinSp_flatten gs h3]

/-! ## Budget compliance of the segmenter (Claim C6)

The token oracle is a real subword tokenizer; the code's accounting sums
per-unit token counts, so the budget guarantee needs the oracle to be
subadditive across a space join and monotone under appending a space —
both hold for `len(tokenizer.encode(...))`-style oracles, whose per-call
special tokens make the sum an overcount. -/

/-- The sum `temp_length` tracks: per-word token counts of `word + ' '`. -/
def sumT (tokLen : String → Nat) (ws : List String) : Nat :=
  (ws.map fun w => tokLen (w ++ " ")).sum

/-- The sum `current_length` tracks: per-sentence token counts. -/
def sumS (tokLen : String → Nat) (ss : List String) : Nat :=
  (ss.map tokLen).sum

/-- Subadditivity extends from a single space join to `' '.join` of a
sentence group. -/
theorem tokLen_joinSp_le_sumS (tokLen : String → Nat)
    (Hjoin : ∀ x y, tokLen (x ++ " " ++ y) ≤ tokLen x + tokLen y) :
    ∀ ss : List String, ss ≠ [] → tokLen (joinSp ss) ≤ sumS tokLen ss := by
  intro ss
  induction ss with
  | nil => intro h; exact absurd rfl h
  | cons s rest ih =>
    intro _
    cases rest with
    | nil => simp [joinSp, sumS]
    | cons s2 rest2 =>
      have h1 : joinSp (s :: s2 :: rest2) = s ++ " " ++ joinSp (s2 :: rest2) := rfl
      rw [h1]
      calc tokLen (s ++ " " ++ joinSp (s2 :: rest2))
          ≤ tokLen s + tokLen (joinSp (s2 :: rest2)) := Hjoin _ _
        _ ≤ tokLen s + sumS tokLen (s2 :: rest2) :=
            Nat.add_le_add_left (ih (by simp)) _
        _ = sumS tokLen (s :: s2 :: rest2) := by simp [sumS]

/-- `' '.join` of a word group stays below the sum of the per-word
`word + ' '` token counts. -/
theorem tokLen_joinSp_le_sumT (tokLen : String → Nat)
    (Hjoin : ∀ x y, tokLen (x ++ " " ++ y) ≤ tokLen x + tokLen y)
    (Hsp : ∀ x, tokLen x ≤ tokLen (x ++ " ")) :
    ∀ ws : List String, ws ≠ [] → tokLen (joinSp ws) ≤ sumT tokLen ws := by
  intro ws
  induction ws with
  | nil => intro h; exact absurd rfl h
  | cons w rest ih =>
    intro _
    cases rest with
    | nil =>
      have h1 : joinSp [w] = w := rfl
      rw [h1]
      calc tokLen w ≤ tokLen (w ++ " ") := Hsp w
        _ = sumT tokLen [w] := by simp [sumT]
    | cons w2 rest2 =>
      have h1 : joinSp (w :: w2 :: rest2) = w ++ " " ++ joinSp (w2 :: rest2) := rfl
      rw [h1]
      calc tokLen (w ++ " " ++ joinSp (w2 :: rest2))
          ≤ tokLen w + tokLen (joinSp (w2 :: rest2)) := Hjoin _ _
        _ ≤ tokLen (w ++ " ") + sumT tokLen (w2 :: rest2) :=
            Nat.add_le_add (Hsp w) (ih (by simp))
        _ = sumT tokLen (w :: w2 :: rest2) := by simp [sumT]

/-- Invariants of the word-repacking loop: every flushed chunk is within
budget or is a single word; the pending `temp_segment` consists of input
words, its recorded length is the tracked sum, and it is within budget
or a singleton. -/
theorem packWords_budget (tokLen : String → Nat) (safe : Nat)
    (Hjoin : ∀ x y, tokLen (x ++ " " ++ y) ≤ tokLen x + tokLen y)
    (Hsp : ∀ x, tokLen x ≤ tokLen (x ++ " ")) (W : List String) :
    ∀ (ws temp : List String) (tlen : Nat),
      (∀ w ∈ ws, w ∈ W) → (∀ w ∈ temp, w ∈ W) →
      tlen = sumT tokLen temp →
      (temp ≠ [] → tlen ≤ safe ∨ ∃ w0, temp = [w0]) →
      ((∀ seg ∈ (packWords tokLen safe ws temp tlen).1,
          tokLen seg ≤ safe ∨ seg ∈ W) ∧
       (∀ w ∈ (packWords tokLen safe ws temp tlen).2.1, w ∈ W) ∧
       (packWords tokLen safe ws temp tlen).2.2 =
         sumT tokLen (packWords tokLen safe ws temp tlen).2.1 ∧
       ((packWords tokLen safe ws temp tlen).2.1 ≠ [] →
         (packWords tokLen safe ws temp tlen).2.2 ≤ safe ∨
           ∃ w0, (packWords tokLen safe ws temp tlen).2.1 = [w0])) := by
  intro ws
  induction ws with
  | nil =>
    intro temp tlen _ htempW hsum hinv
    exact ⟨fun seg h => absurd h (List.not_mem_nil seg), htempW, hsum, hinv⟩
  | cons w ws ih =>
    intro temp tlen hws htempW hsum hinv
    have hwW : w ∈ W := hws w (List.mem_cons_self _ _)
    have hwsW : ∀ x ∈ ws, x ∈ W := fun x hx => hws x (List.mem_cons_of_mem _ hx)
    by_cases hov : safe < tlen + tokLen (w ++ " ")
    · obtain ⟨ih1, ih2, ih3, ih4⟩ := ih [w] (tokLen (w ++ " ")) hwsW
        (fun x hx => by rcases List.mem_singleton.mp hx with rfl; exact hwW)
        (by simp [sumT]) (fun _ => Or.inr ⟨w, rfl⟩)
      have e1 : (packWords tokLen safe (w :: ws) temp tlen).1 =
          (if temp ≠ [] then [joinSp temp] else []) ++
            (packWords tokLen safe ws [w] (tokLen (w ++ " "))).1 := by
        simp [packWords, if_pos hov]
      have e2 : (packWords tokLen safe (w :: ws) temp tlen).2 =
          (packWords tokLen safe ws [w] (tokLen (w ++ " "))).2 := by
        simp [packWords, if_pos hov]
      refine ⟨?_, ?_, ?_, ?_⟩
      · intro seg hseg
        rw [e1] at hseg
        rcases List.mem_append.mp hseg with hx | hx
        · by_cases htemp : temp ≠ []
          · rw [if_pos htemp] at hx
            rcases List.mem_singleton.mp hx with rfl
            rcases hinv htemp with hlen | ⟨w0, rfl⟩
            · left
              calc tokLen (joinSp temp) ≤ sumT tokLen temp :=
                    tokLen_joinSp_le_sumT tokLen Hjoin Hsp temp htemp
                _ = tlen := hsum.symm
                _ ≤ safe := hlen
            · right
              have hj : joinSp [w0] = w0 := rfl
              rw [hj]
              exact htempW w0 (List.mem_singleton.mpr rfl)
          · rw [if_neg htemp] at hx
            cases hx
        · exact ih1 seg hx
      · rw [e2]
        exact ih2
      · rw [e2]
        exact ih3
      · rw [e2]
        exact ih4
    · have heq : packWords tokLen safe (w :: ws) temp tlen =
          packWords tokLen safe ws (temp ++ [w]) (tlen + tokLen (w ++ " ")) := by
        simp [packWords, if_neg hov]
      rw [heq]
      apply ih
      · exact hwsW
      · intro x hx
        rcases List.mem_append.mp hx with h | h
        · exact htempW x h
        · rcases List.mem_singleton.mp h with rfl
          exact hwW
      · rw [hsum]
        simp [sumT]
      · intro _
        left
        exact Nat.not_lt.mp hov

/-- Every chunk the oversized-sentence fallback emits is within budget
or is a single word of the sentence. -/
theorem splitLongSentence_budget (tokLen : String → Nat) (safe : Nat)
    (Hjoin : ∀ x y, tokLen (x ++ " " ++ y) ≤ tokLen x + tokLen y)
    (Hsp : ∀ x, tokLen x ≤ tokLen (x ++ " ")) (sentence : String) :
    ∀ seg ∈ splitLongSentence tokLen safe sentence,
      tokLen seg ≤ safe ∨ seg ∈ pySplit sentence := by
  obtain ⟨h1, h2, h3, h4⟩ := packWords_budget tokLen safe Hjoin Hsp
    (pySplit sentence) (pySplit sentence) [] 0 (fun w h => h)
    (fun w h => absurd h (List.not_mem_nil w)) (by simp [sumT])
    (fun h => absurd rfl h)
  intro seg hseg
  unfold splitLongSentence at hseg
  rcases List.mem_append.mp hseg with hx | hx
  · exact h1 seg hx
  · by_cases ht : (packWords tokLen safe (pySplit sentence) [] 0).2.1 ≠ []
    · rw [if_pos ht] at hx
      rcases List.mem_singleton.mp hx with rfl
      rcases h4 ht with hlen | ⟨w0, hw0⟩
      · left
        calc tokLen (joinSp (packWords tokLen safe (pySplit sentence) [] 0).2.1)
            ≤ sumT tokLen (packWords tokLen safe (pySplit sentence) [] 0).2.1 :=
              tokLen_joinSp_le_sumT tokLen Hjoin Hsp _ ht
          _ = (packWords tokLen safe (pySplit sentence) [] 0).2.2 := h3.symm
          _ ≤ safe := hlen
      · right
        rw [hw0]
        have hj : joinSp [w0] = w0 := rfl
        rw [hj]
        exact h2 w0 (hw0 ▸ List.mem_singleton.mpr rfl)
    · rw [if_neg ht] at hx
      cases hx

/-- Invariant of the sentence-packing loop: every emitted segment is
within budget except single words of oversized sentences. -/
theorem segmentLoop_budget (tokLen : String → Nat) (safe : Nat)
    (Hjoin : ∀ x y, tokLen (x ++ " " ++ y) ≤ tokLen x + tokLen y)
    (Hsp : ∀ x, tokLen x ≤ tokLen (x ++ " ")) :
    ∀ (ss cur : List String) (clen : Nat),
      clen = sumS tokLen cur → clen ≤ safe →
      ∀ seg ∈ segmentLoop tokLen safe ss cur clen,
        tokLen seg ≤ safe ∨ ∃ s ∈ ss, safe < tokLen s ∧ seg ∈ pySplit s := by
  intro ss
  induction ss with
  | nil =>
    intro cur clen hsum hle seg hseg
    by_cases hc : cur ≠ []
    · rw [show segmentLoop tokLen safe [] cur clen = [joinSp cur] from by
        simp [segmentLoop, hc]] at hseg
      rcases List.mem_singleton.mp hseg with rfl
      left
      calc tokLen (joinSp cur) ≤ sumS tokLen cur :=
            tokLen_joinSp_le_sumS tokLen Hjoin cur hc
        _ = clen := hsum.symm
        _ ≤ safe := hle
    · rw [show segmentLoop tokLen safe [] cur clen = [] from by
        simp [segmentLoop, hc]] at hseg
      cases hseg
  | cons s ss ih =>
    intro cur clen hsum hle seg hseg
    by_cases hov : safe < tokLen s
    · rw [show segmentLoop tokLen safe (s :: ss) cur clen =
          (if cur ≠ [] then [joinSp cur] else []) ++ splitLongSentence tokLen safe s
            ++ segmentLoop tokLen safe ss [] 0 from by
        simp [segmentLoop, if_pos hov]] at hseg
      rcases List.mem_append.mp hseg with hx | hx
      · rcases List.mem_append.mp hx with hy | hy
        · by_cases hc : cur ≠ []
          · rw [if_pos hc] at hy
            rcases List.mem_singleton.mp hy with rfl
            left
            calc tokLen (joinSp cur) ≤ sumS tokLen cur :=
                  tokLen_joinSp_le_sumS tokLen Hjoin cur hc
              _ = clen := hsum.symm
              _ ≤ safe := hle
          · rw [if_neg hc] at hy
            cases hy
        · rcases splitLongSentence_budget tokLen safe Hjoin Hsp s seg hy with h | h
          · exact Or.inl h
          · exact Or.inr ⟨s, List.mem_cons_self _ _, hov, h⟩
      · rcases ih [] 0 (by simp [sumS]) (Nat.zero_le _) seg hx with h | ⟨s', hs', hx1, hx2⟩
        · exact Or.inl h
        · exact Or.inr ⟨s', List.mem_cons_of_mem _ hs', hx1, hx2⟩
    · by_cases hfit : safe < clen + tokLen s
      · rw [show segmentLoop tokLen safe (s :: ss) cur clen =
            (if cur ≠ [] then [joinSp cur] else []) ++
              segmentLoop tokLen safe ss [s] (tokLen s) from by
          simp [segmentLoop, if_neg hov, if_pos hfit]] at hseg
        rcases List.mem_append.mp hseg with hx | hx
        · by_cases hc : cur ≠ []
          · rw [if_pos hc] at hx
            rcases List.mem_singleton.mp hx with rfl
            left
            calc tokLen (joinSp cur) ≤ sumS tokLen cur :=
                  tokLen_joinSp_le_sumS tokLen Hjoin cur hc
              _ = clen := hsum.symm
              _ ≤ safe := hle
          · rw [if_neg hc] at hx
            cases hx
        · rcases ih [s] (tokLen s) (by simp [sumS]) (Nat.not_lt.mp hov) seg hx with
            h | ⟨s', hs', hx1, hx2⟩
          · exact Or.inl h
          · exact Or.inr ⟨s', List.mem_cons_of_mem _ hs', hx1, hx2⟩
      · rw [show segmentLoop tokLen safe (s :: ss) cur clen =
            segmentLoop tokLen safe ss (cur ++ [s]) (clen + tokLen s) from by
          simp [segmentLoop, if_neg hov, if_neg hfit]] at hseg
        rcases ih (cur ++ [s]) (clen + tokLen s) (by rw [hsum]; simp [sumS])
            (Nat.not_lt.mp hfit) seg hseg with h | ⟨s', hs', hx1, hx2⟩
        · exact Or.inl h
        · exact Or.inr ⟨s', List.mem_cons_of_mem _ hs', hx1, hx2⟩

/-- Claim C6: under a subadditive, space-monotone token oracle, every
segment output by `segment_document` whose token length exceeds the
budget is a single word of an oversized sentence (emitted as-is);
equivalently, every segment respects the budget except that sole case. -/
theorem segments_respect_budget (tokLen : String → Nat) (safe : Nat)
    (sentences : List String) (seg : String)
    (Hjoin : ∀ x y, tokLen (x ++ " " ++ y) ≤ tokLen x + tokLen y)
    (Hsp : ∀ x, tokLen x ≤ tokLen (x ++ " "))
    (hseg : seg ∈ segment_document tokLen safe sentences)
    (hover : safe < tokLen seg) :
    ∃ s ∈ sentences, safe < tokLen s ∧ seg ∈ pySplit s := by
  rcases segmentLoop_budget tokLen safe Hjoin Hsp sentences [] 0 (by simp [sumS])
    (Nat.zero_le _) seg hseg with h | h
  · exact absurd h (Nat.not_le.mpr hover)
  · exact h

/-- A sample token oracle for the witness: the number of non-whitespace
characters; it is exactly additive across a space join. -/
def nonWsCount (s : String) : Nat :=
  (s.data.filter fun c => !c.isWhitespace).length

/-- The sample oracle is subadditive across a space join. -/
theorem nonWsCount_join (x y : String) :
    nonWsCount (x ++ " " ++ y) ≤ nonWsCount x + nonWsCount y := by
  unfold nonWsCount
  rw [string_data_append, string_data_append, List.filter_append,
    List.filter_append, List.length_append, List.length_append,
    show List.filter (fun c => !c.isWhitespace) (" " : String).data = [] from rfl]
  simp

/-- The sample oracle is monotone under appending a space. -/
theorem nonWsCount_sp (x : String) : nonWsCount x ≤ nonWsCount (x ++ " ") := by
  unfold nonWsCount
  rw [string_data_append, List.filter_append, List.length_append]
  exact Nat.le_add_right _ _

/-- Witness for C6: one four-character sentence, budget 2 — it is
oversized, cannot be split further, and is emitted as-is as the single
word it is. -/
theorem segments_respect_budget_witness :
    ("abcd" ∈ segment_document nonWsCount 2 ["abcd"]) ∧
    (2 < nonWsCount "abcd") ∧
    (∃ s ∈ (["abcd"] : List String), 2 < nonWsCount s ∧ "abcd" ∈ pySplit s) :=
  ⟨by decide, by decide,
   segments_respect_budget nonWsCount 2 ["abcd"] "abcd" nonWsCount_join
     nonWsCount_sp (by decide) (by decide)⟩

end RebelStream
